import Mathlib

/-
Verification development for the clru crate: a concurrency-safe LRU cache
built from a lock-free recency list (src/list.rs), a cache facade
(src/lru.rs) and a background evictor (src/evictor.rs).

The embedding is sequential with explicit interference schedules for the
compare-and-swap races of Lru::get.  Machine usizes are modelled as Nat;
where the source performs wrapping arithmetic (AtomicUsize::fetch_sub, and
release-mode `to_evict -= 1`) the wrap around 2^64 is explicit.
-/

set_option linter.unusedSectionVars false
set_option linter.unusedVariables false
set_option maxRecDepth 2048

/-- Width of usize on a 64-bit target. -/
def USZ : Nat := 2 ^ 64

/-- Wrapping decrement of a usize, as performed by AtomicUsize::fetch_sub(1)
and by release-mode `to_evict -= 1` in src/evictor.rs (debug builds panic
on the same underflow). -/
def wsub (n : Nat) : Nat := (n + (USZ - 1)) % USZ

/-- One access node of the recency chain (list.rs, enum Node::T).  The
terminal Node::Z is represented by the end of the Lean list holding the
chain; `next` ownership is represented by adjacency in that list.  Nodes
are addressed by the index at which they were allocated. -/
structure NodeRec (K : Type) where
  key : K
  born : Nat
  deleted : Bool
  deriving Repr, DecidableEq

/-- One stored map entry: `Value { value, access: AtomicPtr<Node<K>> }`
from the current crate root, with the access pointer as a node id. -/
structure Entry (K V : Type) where
  key : K
  value : V
  access : Nat
  deriving Repr, DecidableEq

/-- Whole-cache state: the node arena (allocation order = id), the recency
chain as a list of node ids (head first, Node::Z implicit at the end), the
cmap store as an association list with unique keys, and the shared
counters of lru.rs / evictor.rs. -/
structure St (K V : Type) where
  nodes : List (NodeRec K)
  chain : List Nat
  store : List (Entry K V)
  curEntries : Nat
  nGets : Nat
  nSets : Nat
  nEvicted : Nat
  nDeleted : Nat
  nOlder : Nat
  nRemoved : Nat
  deriving Repr, DecidableEq

/-- Evictor configuration (src/evictor.rs fields max_entries, max_old;
max_memory only affects the sleep schedule, which no claim concerns). -/
structure Config where
  maxEntries : Nat
  maxOld : Option Nat
  deriving Repr, DecidableEq

variable {K V : Type} [DecidableEq K] [Inhabited K]

/-- Read a node record by id (a dereference of a node pointer). -/
def nodeAt (st : St K V) (nid : Nat) : NodeRec K :=
  st.nodes.getD nid ⟨default, 0, false⟩

/-- The tombstone flag of node `nid`. -/
def deletedAt (st : St K V) (nid : Nat) : Bool := (nodeAt st nid).deleted

/-- Node::delete (list.rs lines 100-107): store `true` into the node's
`deleted` flag, touching nothing else. -/
def markDeleted : List (NodeRec K) → Nat → List (NodeRec K)
  | [], _ => []
  | n :: ns, 0 => ⟨n.key, n.born, true⟩ :: ns
  | n :: ns, a + 1 => n :: markDeleted ns a

/-- Tombstone node `a` inside the full state. -/
def tombstone (st : St K V) (a : Nat) : St K V :=
  { st with nodes := markDeleted st.nodes a }

/-- List::prepend (list.rs lines 32-49): allocate a fresh node carrying the
key and the current timestamp and install it at the head of the chain.
The CAS retry loop of the source always terminates with the node at the
head; sequentially it succeeds at once. Returns the new node's id. -/
def prependOp (st : St K V) (k : K) (t : Nat) : St K V × Nat :=
  let nid := st.nodes.length
  ({ st with nodes := st.nodes ++ [⟨k, t, false⟩], chain := nid :: st.chain }, nid)

/-- cmap lookup: first (unique) entry with the given key. -/
def sLookup : List (Entry K V) → K → Option (Entry K V)
  | [], _ => none
  | e :: rest, k => if e.key = k then some e else sLookup rest k

/-- cmap::Map::set: replace the entry for `k` (returning the previous one)
or append a fresh entry. -/
def storeSet : List (Entry K V) → K → V → Nat → List (Entry K V) × Option (Entry K V)
  | [], k, v, a => ([⟨k, v, a⟩], none)
  | e :: rest, k, v, a =>
    if e.key = k then (⟨k, v, a⟩ :: rest, some e)
    else
      let r := storeSet rest k v a
      (e :: r.1, r.2)

/-- cmap::Map::remove: drop the entry for `k`, returning it when found. -/
def storeRemove : List (Entry K V) → K → List (Entry K V) × Option (Entry K V)
  | [], _ => ([], none)
  | e :: rest, k =>
    if e.key = k then (rest, some e)
    else
      let r := storeRemove rest k
      (e :: r.1, r.2)

/-- A store (AtomicPtr) write of the Value's access field for key `k`. -/
def storeSetAccess : List (Entry K V) → K → Nat → List (Entry K V)
  | [], _, _ => []
  | e :: rest, k, a =>
    if e.key = k then ⟨e.key, e.value, a⟩ :: rest
    else e :: storeSetAccess rest k a

/-- Current access-node id of key `k` (value.access.load in lru.rs get). -/
def accessOf (st : St K V) (k : K) : Nat :=
  match sLookup st.store k with
  | some e => e.access
  | none => 0

/-- Update the stored Value's access field for `k` in the state. -/
def setAccess (st : St K V) (k : K) (a : Nat) : St K V :=
  { st with store := storeSetAccess st.store k a }

/-- Lru::set (lru.rs lines 169-189): bump n_sets, prepend a fresh node,
build the Value around it and store it; when a previous Value existed,
tombstone its access node and return its value.  The source never touches
cur_entries or cur_memory here. -/
def setOp (st : St K V) (k : K) (v : V) (t : Nat) : St K V × Option V :=
  let st0 : St K V := { st with nSets := st.nSets + 1 }
  let p := prependOp st0 k t
  let r := storeSet p.1.store k v p.2
  match r.2 with
  | some e => (tombstone { p.1 with store := r.1 } e.access, some e.value)
  | none => ({ p.1 with store := r.1 }, none)

/-- The body of the get_with closure of Lru::get (lru.rs lines 150-164),
driven by an interference schedule: entry `a` of the schedule means a
concurrent writer stored `a` into the Value's access field between this
iteration's load of `optr` and its compare_exchange.  An empty remaining
schedule means the CAS succeeds.  On CAS failure the source tombstones the
newly created node, bumps n_gets and retries. -/
def getLoop : List Nat → St K V → K → V → Nat → St K V × V
  | [], st, k, v, t =>
    let optr := accessOf st k
    let p := prependOp st k t
    (tombstone (setAccess p.1 k p.2) optr, v)
  | a :: rest, st, k, v, t =>
    let optr := accessOf st k
    let p := prependOp st k t
    let st2 := setAccess p.1 k a
    if a = optr then
      (tombstone (setAccess st2 k p.2) optr, v)
    else
      let st3 := tombstone st2 p.2
      getLoop rest { st3 with nGets := st3.nGets + 1 } k v t

/-- Lru::get (lru.rs lines 143-167): on a store miss return absent with no
side effect; on a hit run the CAS loop and return the stored value. -/
def getOp (interf : List Nat) (st : St K V) (k : K) (t : Nat) : St K V × Option V :=
  match sLookup st.store k with
  | none => (st, none)
  | some e =>
    let r := getLoop interf st k e.value t
    (r.1, some r.2)

/-- Modelled from the spec: the public remove of the current crate's
facade is not under src/ (the lib.rs present is the older prototype whose
remove returns no value and which has no cur_entries counter; lru.rs has
no remove).  Structure follows that prototype remove (map.remove, then
tombstone the returned Value's access node; absent key is a no-op); the
returned previous value and the cur_entries decrement follow the spec's
words for `remove(key)`. -/
def removeOp (st : St K V) (k : K) : St K V × Option V :=
  let r := storeRemove st.store k
  match r.2 with
  | some e =>
    (tombstone { st with store := r.1, curEntries := st.curEntries - 1 } e.access, some e.value)
  | none => (st, none)

/-- The age test of the sweep (`&(now - *born) > max_old`); Duration
subtraction is modelled by truncated Nat subtraction (the source panics
when born is in the future, which no claim exercises). -/
def oldCheck : Option Nat → Nat → Nat → Bool
  | some d, now, born => decide (d < now - born)
  | none, _, _ => false

/-- The store-removal half of sweep rules 2 and 3 (evictor.rs lines 84-94
and 98-108): remove the key from the map; when an entry was found, bump
n_removed, fetch_sub cur_entries (wrapping) and tombstone the Value's
access node; absence is not an error. -/
def removeFromStore (st : St K V) (k : K) : St K V :=
  let r := storeRemove st.store k
  match r.2 with
  | some e =>
    tombstone
      { st with store := r.1, nRemoved := st.nRemoved + 1, curEntries := wsub st.curEntries }
      e.access
  | none => { st with store := r.1 }

/-- The decision taken on one visited node of the sweep (the match of
evictor.rs lines 71-115): `some` means the node is unlinked and carries
the state and budget after this node, including the unconditional
`n_evicted += 1; to_evict -= 1` of lines 117-118; `none` means the node is
protected and the cursor advances past it. -/
def sweepStep (cfg : Config) (now : Nat) (st : St K V) (te : Nat) (nid : Nat) :
    Option (St K V × Nat) :=
  let nd := nodeAt st nid
  if nd.deleted then
    some ({ st with nDeleted := st.nDeleted + 1, nEvicted := st.nEvicted + 1 }, wsub te)
  else if oldCheck cfg.maxOld now nd.born then
    let st1 := removeFromStore { st with nOlder := st.nOlder + 1 } nd.key
    some ({ st1 with nEvicted := st1.nEvicted + 1 }, wsub te)
  else if 0 < te then
    let st1 := removeFromStore st nd.key
    some ({ st1 with nEvicted := st1.nEvicted + 1 }, wsub te)
  else
    none

/-- The inner sweep loop of Evictor::run (evictor.rs lines 70-129).  `acc`
holds the ids of the nodes skipped (protected) since the last unlink,
still linked between the fixed `prev_node` and the cursor; on an unlink
the source replaces prev_node.next with the unlinked node's successor,
which drops the whole accumulated segment from the chain.  Returns the
final state, the final budget and the chain tail remaining after
prev_node. -/
def sweepGo (cfg : Config) (now : Nat) :
    St K V → Nat → List Nat → List Nat → St K V × Nat × List Nat
  | st, te, acc, [] => (st, te, acc)
  | st, te, acc, nid :: rest =>
    match sweepStep cfg now st te nid with
    | some (st1, te1) => sweepGo cfg now st1 te1 [] rest
    | none => sweepGo cfg now st te (acc ++ [nid]) rest

/-- List::as_mut_head (list.rs lines 51-65): walk `skip` key nodes past
the head; reaching the terminal first yields nothing.  Returns the chain
suffix whose head is the returned node. -/
def asMutHead : Nat → List Nat → Option (List Nat)
  | _, [] => none
  | 0, n :: rest => some (n :: rest)
  | skip + 1, _ :: rest => asMutHead skip rest

/-- One sweep pass of Evictor::run (evictor.rs lines 51-129): take the
cursor five key nodes past the head (continue idle when absent), compute
the surplus budget `to_evict = max(0, cur_entries - max_entries)` and run
the inner loop on the nodes strictly beyond the cursor. -/
def sweep (cfg : Config) (now : Nat) (st : St K V) : St K V :=
  match asMutHead 5 st.chain with
  | none => st
  | some [] => st
  | some (prev :: tail) =>
    let te0 := if cfg.maxEntries < st.curEntries then st.curEntries - cfg.maxEntries else 0
    let r := sweepGo cfg now st te0 [] tail
    { r.1 with chain := st.chain.take 5 ++ prev :: r.2.2 }

/-- Most recent value set for `k` by a sequence of (key, value, time)
set calls. -/
def lastSet : List (K × V × Nat) → K → Option V
  | [], _ => none
  | o :: rest, k =>
    match lastSet rest k with
    | some v => some v
    | none => if o.1 = k then some o.2.1 else none

/-- Execute a sequence of set calls. -/
def runSets (st : St K V) (ops : List (K × V × Nat)) : St K V :=
  ops.foldl (fun s o => (setOp s o.1 o.2.1 o.2.2).1) st

/-- The operations of the system, for whole-system invariants. -/
inductive Op (K V : Type) where
  | set (k : K) (v : V) (t : Nat)
  | get (k : K) (interf : List Nat) (t : Nat)
  | remove (k : K)
  | sweep (cfg : Config) (now : Nat)

/-- Apply one operation. -/
def stepOp (st : St K V) : Op K V → St K V
  | .set k v t => (setOp st k v t).1
  | .get k interf t => (getOp interf st k t).1
  | .remove k => (removeOp st k).1
  | .sweep cfg now => sweep cfg now st

/-- Apply a sequence of operations. -/
def runOps (st : St K V) (ops : List (Op K V)) : St K V :=
  ops.foldl stepOp st

/-- An interference schedule is effective when each scheduled write
differs from the access value it races with: the first from the Value's
current access, each later one from its predecessor (which the failed
iteration installed). -/
def distinctFromB (x : Nat) : List Nat → Bool
  | [] => true
  | a :: rest => (a != x) && distinctFromB a rest

/-- The empty cache produced by LruBuilder::build (lru.rs lines 40-44):
all counters start at zero. -/
def stEmpty : St Nat Nat := ⟨[], [], [], 0, 0, 0, 0, 0, 0, 0⟩

/-- Six fresh filler records followed by a tombstoned node (id 6): the
sweep cursor skips ids 0-5 and visits id 6.  Entry counter at zero, so the
surplus budget starts at zero. -/
def stC3 : St Nat Nat :=
  ⟨[⟨0, 0, false⟩, ⟨1, 0, false⟩, ⟨2, 0, false⟩, ⟨3, 0, false⟩, ⟨4, 0, false⟩,
    ⟨5, 0, false⟩, ⟨6, 0, true⟩],
   [0, 1, 2, 3, 4, 5, 6], [], 0, 0, 0, 0, 0, 0, 0⟩

/-- Capacity 10, no age limit. -/
def cfgC3 : Config := ⟨10, none⟩

/-- Capacity 5000, max_old of 50 time units. -/
def cfgC4 : Config := ⟨5000, some 50⟩

/-- A state with a tombstoned node (id 6), an expired live node (id 7)
whose key 7 is stored, and an expired live node (id 8) whose key 9 is
absent from the store. -/
def stC7 : St Nat Nat :=
  ⟨[⟨0, 90, false⟩, ⟨1, 90, false⟩, ⟨2, 90, false⟩, ⟨3, 90, false⟩, ⟨4, 90, false⟩,
    ⟨5, 90, false⟩, ⟨6, 0, true⟩, ⟨7, 0, false⟩, ⟨9, 0, false⟩],
   [0, 1, 2, 3, 4, 5, 6, 7, 8], [⟨7, 1, 7⟩], 3, 0, 0, 0, 0, 0, 0⟩

/-- A one-entry store whose Value's access points at node 0. -/
def stC5 : St Nat Nat :=
  ⟨[⟨0, 0, false⟩], [0], [⟨0, 42, 0⟩], 1, 0, 0, 0, 0, 0, 0⟩

/-- Capacity 100, max_old of 50 time units. -/
def cfgC7 : Config := ⟨100, some 50⟩

/-- Six young filler nodes (ids 0-5, born 90) ahead of an expired node
(id 6, key 0, born 0) whose key is stored: the expired node sits just past
the skip window. -/
def stC4w : St Nat Nat :=
  ⟨[⟨1, 90, false⟩, ⟨2, 90, false⟩, ⟨3, 90, false⟩, ⟨4, 90, false⟩, ⟨5, 90, false⟩,
    ⟨6, 90, false⟩, ⟨0, 0, false⟩],
   [0, 1, 2, 3, 4, 5, 6], [⟨0, 1, 6⟩], 1, 0, 0, 0, 0, 0, 0⟩

/-- The cmap store keeps at most one entry per key. -/
def uniqKeys (s : List (Entry K V)) : Prop :=
  s.Pairwise (fun a b => a.key ≠ b.key)

instance (s : List (Entry K V)) : Decidable (uniqKeys s) := by
  unfold uniqKeys; infer_instance

/- ### Association-list lemmas for the store -/

theorem sLookup_eq_none_of_forall {s : List (Entry K V)} {k : K}
    (h : ∀ e ∈ s, e.key ≠ k) : sLookup s k = none := by
  induction s with
  | nil => rfl
  | cons e rest ih =>
    simp only [sLookup]
    rw [if_neg (h e (List.mem_cons_self e rest))]
    exact ih fun e' he' => h e' (List.mem_cons_of_mem e he')

theorem storeSet_snd (s : List (Entry K V)) (k : K) (v : V) (a : Nat) :
    (storeSet s k v a).2 = sLookup s k := by
  induction s with
  | nil => rfl
  | cons e rest ih =>
    simp only [storeSet, sLookup]
    by_cases h : e.key = k
    · simp [h]
    · simp [h, ih]

theorem sLookup_storeSet_self (s : List (Entry K V)) (k : K) (v : V) (a : Nat) :
    sLookup (storeSet s k v a).1 k = some ⟨k, v, a⟩ := by
  induction s with
  | nil => simp [storeSet, sLookup]
  | cons e rest ih =>
    simp only [storeSet]
    by_cases h : e.key = k
    · simp [h, sLookup]
    · simp [h, sLookup, ih]

theorem sLookup_storeSet_other (s : List (Entry K V)) {k k' : K} (v : V) (a : Nat)
    (h : k' ≠ k) : sLookup (storeSet s k v a).1 k' = sLookup s k' := by
  induction s with
  | nil =>
    simp only [storeSet, sLookup]
    rw [if_neg (fun hk : k = k' => h hk.symm)]
  | cons e rest ih =>
    simp only [storeSet]
    by_cases he : e.key = k
    · rw [if_pos he]
      simp only [sLookup]
      rw [if_neg (fun hk : k = k' => h hk.symm),
        if_neg (fun hk : e.key = k' => h (by rw [← hk]; exact he))]
    · rw [if_neg he]
      simp only [sLookup]
      by_cases he' : e.key = k'
      · rw [if_pos he', if_pos he']
      · rw [if_neg he', if_neg he']
        exact ih

theorem storeRemove_snd (s : List (Entry K V)) (k : K) :
    (storeRemove s k).2 = sLookup s k := by
  induction s with
  | nil => rfl
  | cons e rest ih =>
    simp only [storeRemove, sLookup]
    by_cases h : e.key = k
    · simp [h]
    · simp [h, ih]

theorem storeRemove_of_none {s : List (Entry K V)} {k : K}
    (h : sLookup s k = none) : storeRemove s k = (s, none) := by
  induction s with
  | nil => rfl
  | cons e rest ih =>
    simp only [sLookup] at h
    by_cases he : e.key = k
    · simp [he] at h
    · simp only [storeRemove, if_neg he]
      rw [if_neg he] at h
      simp [ih h]

theorem storeRemove_sublist (s : List (Entry K V)) (k : K) :
    (storeRemove s k).1.Sublist s := by
  induction s with
  | nil => simp [storeRemove]
  | cons e rest ih =>
    simp only [storeRemove]
    by_cases he : e.key = k
    · rw [if_pos he]; exact List.sublist_cons_self e rest
    · rw [if_neg he]; exact List.Sublist.cons₂ e ih

theorem sLookup_storeRemove_self {s : List (Entry K V)} {k : K}
    (h : uniqKeys s) : sLookup (storeRemove s k).1 k = none := by
  induction s with
  | nil => rfl
  | cons e rest ih =>
    rcases List.pairwise_cons.mp h with ⟨hhead, htail⟩
    simp only [storeRemove]
    by_cases he : e.key = k
    · rw [if_pos he]
      exact sLookup_eq_none_of_forall fun e' he' => by
        rw [← he]; exact (hhead e' he').symm
    · rw [if_neg he]
      simp only [sLookup, if_neg he]
      exact ih htail

theorem sLookup_storeRemove_none {s : List (Entry K V)} {k k' : K}
    (h : sLookup s k = none) : sLookup (storeRemove s k').1 k = none := by
  induction s with
  | nil => rfl
  | cons e rest ih =>
    simp only [sLookup] at h
    by_cases he : e.key = k
    · simp [he] at h
    · rw [if_neg he] at h
      simp only [storeRemove]
      by_cases he' : e.key = k'
      · rw [if_pos he']; exact h
      · rw [if_neg he']
        simp only [sLookup, if_neg he]
        exact ih h

theorem uniqKeys_storeRemove {s : List (Entry K V)} (k : K)
    (h : uniqKeys s) : uniqKeys (storeRemove s k).1 := by
  induction s with
  | nil => exact h
  | cons e rest ih =>
    rcases List.pairwise_cons.mp h with ⟨hhead, htail⟩
    simp only [storeRemove]
    by_cases he : e.key = k
    · rw [if_pos he]; exact htail
    · rw [if_neg he]
      refine List.pairwise_cons.mpr ⟨?_, ih htail⟩
      intro e' he'
      exact hhead e' ((storeRemove_sublist rest k).mem he')

theorem sLookup_storeSetAccess_self (s : List (Entry K V)) (k : K) (a : Nat) :
    sLookup (storeSetAccess s k a) k =
      (sLookup s k).map fun e => ⟨e.key, e.value, a⟩ := by
  induction s with
  | nil => rfl
  | cons e rest ih =>
    simp only [storeSetAccess, sLookup]
    by_cases h : e.key = k
    · simp [h, sLookup]
    · simp [h, sLookup, ih]

/- ### Node-arena lemmas -/

theorem markDeleted_length (ns : List (NodeRec K)) (a : Nat) :
    (markDeleted ns a).length = ns.length := by
  induction ns generalizing a with
  | nil => rfl
  | cons n rest ih =>
    cases a with
    | zero => rfl
    | succ b => simp [markDeleted, ih]

theorem markDeleted_oob {ns : List (NodeRec K)} {a : Nat}
    (h : ns.length ≤ a) : markDeleted ns a = ns := by
  induction ns generalizing a with
  | nil => rfl
  | cons n rest ih =>
    cases a with
    | zero => exact absurd h (by simp)
    | succ b =>
      simp only [markDeleted]
      rw [ih (Nat.le_of_succ_le_succ h)]

theorem markDeleted_getD_ne (ns : List (NodeRec K)) {i a : Nat} (d : NodeRec K)
    (h : i ≠ a) : (markDeleted ns a).getD i d = ns.getD i d := by
  induction ns generalizing i a with
  | nil => rfl
  | cons n rest ih =>
    cases a with
    | zero =>
      cases i with
      | zero => exact absurd rfl h
      | succ j => rfl
    | succ b =>
      cases i with
      | zero => rfl
      | succ j =>
        simp only [markDeleted, List.getD_cons_succ]
        exact ih fun hj => h (hj ▸ rfl)

theorem markDeleted_getD_self {ns : List (NodeRec K)} {a : Nat} (d : NodeRec K)
    (h : a < ns.length) :
    (markDeleted ns a).getD a d =
      ⟨(ns.getD a d).key, (ns.getD a d).born, true⟩ := by
  induction ns generalizing a with
  | nil => exact absurd h (by simp)
  | cons n rest ih =>
    cases a with
    | zero => rfl
    | succ b =>
      simp only [markDeleted, List.getD_cons_succ]
      exact ih (Nat.lt_of_succ_lt_succ h)

theorem markDeleted_idem (ns : List (NodeRec K)) (a : Nat) :
    markDeleted (markDeleted ns a) a = markDeleted ns a := by
  induction ns generalizing a with
  | nil => rfl
  | cons n rest ih =>
    cases a with
    | zero => rfl
    | succ b => simp [markDeleted, ih]

theorem markDeleted_getD_key (ns : List (NodeRec K)) (a i : Nat) (d : NodeRec K) :
    ((markDeleted ns a).getD i d).key = (ns.getD i d).key := by
  by_cases h : i = a
  · subst h
    by_cases hl : i < ns.length
    · rw [markDeleted_getD_self d hl]
    · rw [markDeleted_oob (Nat.le_of_not_lt hl)]
  · rw [markDeleted_getD_ne ns d h]

theorem markDeleted_getD_born (ns : List (NodeRec K)) (a i : Nat) (d : NodeRec K) :
    ((markDeleted ns a).getD i d).born = (ns.getD i d).born := by
  by_cases h : i = a
  · subst h
    by_cases hl : i < ns.length
    · rw [markDeleted_getD_self d hl]
    · rw [markDeleted_oob (Nat.le_of_not_lt hl)]
  · rw [markDeleted_getD_ne ns d h]

theorem markDeleted_deleted_mono {ns : List (NodeRec K)} {i : Nat} {d : NodeRec K}
    (a : Nat) (h : (ns.getD i d).deleted = true) :
    ((markDeleted ns a).getD i d).deleted = true := by
  by_cases hia : i = a
  · subst hia
    by_cases hl : i < ns.length
    · rw [markDeleted_getD_self d hl]
    · rw [markDeleted_oob (Nat.le_of_not_lt hl)]; exact h
  · rw [markDeleted_getD_ne ns d hia]; exact h

/-- A node whose flag reads true is a real allocated node: the default
record is not deleted. -/
theorem deletedAt_lt_length {st : St K V} {i : Nat}
    (h : deletedAt st i = true) : i < st.nodes.length := by
  by_contra hl
  rw [deletedAt, nodeAt, List.getD_eq_default _ _ (Nat.le_of_not_lt hl)] at h
  exact Bool.false_ne_true h

theorem getD_append_one {ns : List (NodeRec K)} {i : Nat} (x d : NodeRec K)
    (h : i < ns.length) : (ns ++ [x]).getD i d = ns.getD i d :=
  List.getD_append ns [x] d i h

/- ### Tombstone flags never revert: monotonicity across all operations -/

/-- Deleted flags of `st` survive into `st1`. -/
def delePres (st st1 : St K V) : Prop :=
  ∀ i, deletedAt st i = true → deletedAt st1 i = true

theorem delePres_refl (st : St K V) : delePres st st := fun _ h => h

theorem delePres_trans {s1 s2 s3 : St K V}
    (h12 : delePres s1 s2) (h23 : delePres s2 s3) : delePres s1 s3 :=
  fun i h => h23 i (h12 i h)

theorem delePres_of_nodes_eq {s1 s2 : St K V} (h : s2.nodes = s1.nodes) :
    delePres s1 s2 := by
  intro i hi
  rw [deletedAt, nodeAt, h]
  exact hi

theorem tombstone_delePres (st : St K V) (a : Nat) : delePres st (tombstone st a) :=
  fun i hi => markDeleted_deleted_mono a hi

theorem tombstone_deletedAt {st : St K V} {a : Nat} (h : a < st.nodes.length) :
    deletedAt (tombstone st a) a = true := by
  rw [deletedAt, nodeAt, tombstone]
  rw [markDeleted_getD_self _ h]

theorem prependOp_delePres (st : St K V) (k : K) (t : Nat) :
    delePres st (prependOp st k t).1 := by
  intro i hi
  rw [deletedAt, nodeAt, prependOp]
  rw [getD_append_one _ _ (deletedAt_lt_length hi)]
  exact hi

theorem removeFromStore_delePres (st : St K V) (k : K) :
    delePres st (removeFromStore st k) := by
  intro i hi
  rw [removeFromStore]
  cases hr : (storeRemove st.store k).2 with
  | none => exact hi
  | some e => exact markDeleted_deleted_mono e.access hi

theorem setOp_delePres (st : St K V) (k : K) (v : V) (t : Nat) :
    delePres st (setOp st k v t).1 := by
  intro i hi
  have h1 := prependOp_delePres { st with nSets := st.nSets + 1 } k t i hi
  rw [setOp]
  cases hr : (storeSet (prependOp { st with nSets := st.nSets + 1 } k t).1.store k v
      (prependOp { st with nSets := st.nSets + 1 } k t).2).2 with
  | none => simpa [hr] using h1
  | some e =>
    simp only [hr]
    exact markDeleted_deleted_mono e.access h1

theorem getLoop_delePres (interf : List Nat) (st : St K V) (k : K) (v : V) (t : Nat) :
    delePres st (getLoop interf st k v t).1 := by
  induction interf generalizing st with
  | nil =>
    intro i hi
    exact markDeleted_deleted_mono _ (prependOp_delePres st k t i hi)
  | cons a rest ih =>
    intro i hi
    have h1 := prependOp_delePres st k t i hi
    simp only [getLoop]
    by_cases ha : a = accessOf st k
    · rw [if_pos ha]
      exact markDeleted_deleted_mono _ h1
    · rw [if_neg ha]
      exact ih _ i (markDeleted_deleted_mono _ h1)

theorem getOp_delePres (interf : List Nat) (st : St K V) (k : K) (t : Nat) :
    delePres st (getOp interf st k t).1 := by
  intro i hi
  rw [getOp]
  cases hl : sLookup st.store k with
  | none => exact hi
  | some e => exact getLoop_delePres interf st k e.value t i hi

theorem removeOp_delePres (st : St K V) (k : K) : delePres st (removeOp st k).1 := by
  intro i hi
  rw [removeOp]
  cases hr : (storeRemove st.store k).2 with
  | none => exact hi
  | some e => exact markDeleted_deleted_mono e.access hi

theorem sweepStep_delePres {cfg : Config} {now : Nat} {st st1 : St K V} {te te1 : Nat}
    {nid : Nat} (h : sweepStep cfg now st te nid = some (st1, te1)) :
    delePres st st1 := by
  rw [sweepStep] at h
  by_cases hd : (nodeAt st nid).deleted
  · rw [if_pos hd] at h
    injection h with h'
    injection h' with h1 h2
    exact delePres_of_nodes_eq (by rw [← h1])
  · rw [if_neg hd] at h
    by_cases ho : oldCheck cfg.maxOld now (nodeAt st nid).born
    · rw [if_pos ho] at h
      injection h with h'
      injection h' with h1 h2
      intro i hi
      have := removeFromStore_delePres
        { st with nOlder := st.nOlder + 1 } (nodeAt st nid).key i hi
      rw [← h1]
      exact this
    · rw [if_neg ho] at h
      by_cases hte : 0 < te
      · rw [if_pos hte] at h
        injection h with h'
        injection h' with h1 h2
        intro i hi
        have := removeFromStore_delePres st (nodeAt st nid).key i hi
        rw [← h1]
        exact this
      · rw [if_neg hte] at h
        exact absurd h (by simp)

theorem sweepGo_delePres (cfg : Config) (now : Nat) (st : St K V) (te : Nat)
    (acc rest : List Nat) : delePres st (sweepGo cfg now st te acc rest).1 := by
  induction rest generalizing st te acc with
  | nil => exact delePres_refl st
  | cons nid rs ih =>
    simp only [sweepGo]
    cases hs : sweepStep cfg now st te nid with
    | none => exact ih st te (acc ++ [nid])
    | some p =>
      obtain ⟨st1, te1⟩ := p
      exact delePres_trans (sweepStep_delePres hs) (ih st1 te1 [])

theorem sweep_delePres (cfg : Config) (now : Nat) (st : St K V) :
    delePres st (sweep cfg now st) := by
  rw [sweep]
  cases hh : asMutHead 5 st.chain with
  | none => exact delePres_refl st
  | some suffix =>
    cases suffix with
    | nil => exact delePres_refl st
    | cons prev tail =>
      intro i hi
      have := sweepGo_delePres cfg now st
        (if cfg.maxEntries < st.curEntries then st.curEntries - cfg.maxEntries else 0)
        [] tail i hi
      simpa [deletedAt, nodeAt] using this

theorem stepOp_delePres (st : St K V) (o : Op K V) : delePres st (stepOp st o) := by
  cases o with
  | set k v t => exact setOp_delePres st k v t
  | get k interf t => exact getOp_delePres interf st k t
  | remove k => exact removeOp_delePres st k
  | sweep cfg now => exact sweep_delePres cfg now st

theorem runOps_delePres (st : St K V) (ops : List (Op K V)) :
    delePres st (runOps st ops) := by
  induction ops generalizing st with
  | nil => exact delePres_refl st
  | cons o os ih =>
    exact delePres_trans (stepOp_delePres st o) (ih (stepOp st o))

theorem sLookup_storeSetAccess_other (s : List (Entry K V)) {k k' : K} (a : Nat)
    (h : k' ≠ k) : sLookup (storeSetAccess s k a) k' = sLookup s k' := by
  induction s with
  | nil => rfl
  | cons e rest ih =>
    simp only [storeSetAccess]
    by_cases he : e.key = k
    · rw [if_pos he]
      simp only [sLookup]
      rw [if_neg (fun hk : e.key = k' => h (by rw [← hk]; exact he)),
        if_neg (fun hk : e.key = k' => h (by rw [← hk]; exact he))]
    · rw [if_neg he]
      simp only [sLookup]
      by_cases he' : e.key = k'
      · rw [if_pos he', if_pos he']
      · rw [if_neg he', if_neg he']
        exact ih

/- ### Sweep lemmas -/

theorem asMutHead_spec (s : Nat) (ns : List Nat) :
    asMutHead s ns = if ns.length ≤ s then none else some (ns.drop s) := by
  induction ns generalizing s with
  | nil => cases s <;> rfl
  | cons n rest ih =>
    cases s with
    | zero => simp [asMutHead]
    | succ b =>
      simp only [asMutHead, ih, List.length_cons, List.drop_succ_cons]
      by_cases h : rest.length ≤ b
      · rw [if_pos h, if_pos (Nat.succ_le_succ h)]
      · rw [if_neg h, if_neg (fun hb => h (Nat.le_of_succ_le_succ hb))]

theorem removeFromStore_self_none {st : St K V} (k : K)
    (hu : uniqKeys st.store) :
    sLookup (removeFromStore st k).store k = none := by
  rw [removeFromStore]
  cases hr : (storeRemove st.store k).2 with
  | none => exact sLookup_storeRemove_self hu
  | some e => exact sLookup_storeRemove_self hu

theorem removeFromStore_none {st : St K V} {k : K} (k' : K)
    (h : sLookup st.store k = none) :
    sLookup (removeFromStore st k').store k = none := by
  rw [removeFromStore]
  cases hr : (storeRemove st.store k').2 with
  | none => exact sLookup_storeRemove_none h
  | some e => exact sLookup_storeRemove_none h

theorem sweepStep_store_none {cfg : Config} {now : Nat} {st st1 : St K V}
    {te te1 : Nat} {nid : Nat} {k : K}
    (hs : sweepStep cfg now st te nid = some (st1, te1))
    (h : sLookup st.store k = none) : sLookup st1.store k = none := by
  rw [sweepStep] at hs
  by_cases hd : (nodeAt st nid).deleted
  · rw [if_pos hd] at hs
    simp only [Option.some.injEq, Prod.mk.injEq] at hs
    rw [← hs.1]
    exact h
  · rw [if_neg hd] at hs
    by_cases ho : oldCheck cfg.maxOld now (nodeAt st nid).born
    · rw [if_pos ho] at hs
      simp only [Option.some.injEq, Prod.mk.injEq] at hs
      rw [← hs.1]
      exact removeFromStore_none (nodeAt st nid).key h
    · rw [if_neg ho] at hs
      by_cases hte : 0 < te
      · rw [if_pos hte] at hs
        simp only [Option.some.injEq, Prod.mk.injEq] at hs
        rw [← hs.1]
        exact removeFromStore_none (nodeAt st nid).key h
      · rw [if_neg hte] at hs
        exact absurd hs (by simp)

theorem sweepGo_store_none (cfg : Config) (now : Nat) {st : St K V} (te : Nat)
    (acc rest : List Nat) {k : K} (h : sLookup st.store k = none) :
    sLookup (sweepGo cfg now st te acc rest).1.store k = none := by
  induction rest generalizing st te acc with
  | nil => exact h
  | cons nid rs ih =>
    simp only [sweepGo]
    cases hs : sweepStep cfg now st te nid with
    | none => exact ih te (acc ++ [nid]) h
    | some p =>
      obtain ⟨st1, te1⟩ := p
      exact ih te1 [] (sweepStep_store_none hs h)

theorem sweepGo_protected_run (cfg : Config) (now : Nat) (st : St K V)
    (acc rest : List Nat) {fs : List Nat}
    (h : ∀ m ∈ fs, (nodeAt st m).deleted = false ∧
      oldCheck cfg.maxOld now (nodeAt st m).born = false) :
    sweepGo cfg now st 0 acc (fs ++ rest) = sweepGo cfg now st 0 (acc ++ fs) rest := by
  induction fs generalizing acc with
  | nil => rw [List.append_nil, List.nil_append]
  | cons m fs ih =>
    have hm := h m (List.mem_cons_self m fs)
    have hstep : sweepStep cfg now st 0 m = none := by
      rw [sweepStep, if_neg (by rw [hm.1]; exact Bool.false_ne_true),
        if_neg (by rw [hm.2]; exact Bool.false_ne_true), if_neg (Nat.lt_irrefl 0)]
    simp only [List.cons_append, sweepGo, hstep, List.append_eq]
    rw [ih (acc ++ [m]) (fun m' hm' => h m' (List.mem_cons_of_mem m hm')),
      ← List.append_cons acc m fs]

/- ### Claim theorems -/

/-- C2: the claim states that set(key, value) increments cur_entries by
one when no previous entry existed.  The code never touches cur_entries in
Lru::set: the counter is unchanged by every set call, so after the first
set into an empty cache it still reads 0 instead of 1 (the half of the
claim about an existing previous entry does hold, vacuously, since the
counter is never modified at all). -/
theorem set_never_touches_curEntries :
    (∀ (st : St K V) (k : K) (v : V) (t : Nat),
      (setOp st k v t).1.curEntries = st.curEntries) ∧
    (setOp stEmpty 0 1 0).1.curEntries = 0 ∧ (setOp stEmpty 0 1 0).2 = none := by
  refine ⟨?_, rfl, rfl⟩
  intro st k v t
  simp only [setOp]
  cases hr : (storeSet (prependOp { st with nSets := st.nSets + 1 } k t).1.store k v
      (prependOp { st with nSets := st.nSets + 1 } k t).2).2 with
  | none => rfl
  | some e => rfl

/-- C3: the claim states that the surplus budget is decremented and
n_evicted incremented exactly once per capacity-rule removal and never for
any other node, and that the budget never goes below zero.  In the code
the `n_evicted += 1; to_evict -= 1` pair runs after every unlink: on a
state with zero surplus (cur_entries = 0 below max_entries = 10) whose
first visited node is tombstoned, the sweep increments n_evicted although
no capacity eviction happened, and the usize budget wraps from 0 to
2^64 - 1 (a panic in debug builds). -/
theorem sweep_miscounts_tombstone_unlink :
    (sweep cfgC3 0 stC3).nEvicted = 1 ∧ (sweep cfgC3 0 stC3).nDeleted = 1 ∧
    (sweepGo cfgC3 0 stC3 0 [] [6]).2.1 = USZ - 1 := by
  refine ⟨rfl, rfl, rfl⟩

/-- C4 counterexample: the claim's example says that after set(A,1), a
wait longer than max_old = 50, and at least one sweep, get(A) returns
absent.  With a single entry the recency chain holds one node, the sweep
cursor (which skips five key nodes) finds nothing, the sweep is a no-op,
and get(A) still returns the value 1 at time 100. -/
theorem single_old_entry_survives_sweep :
    (getOp [] (sweep cfgC4 100 (setOp stEmpty 0 1 0).1) 0 100).2 = some 1 ∧
    sweep cfgC4 100 (setOp stEmpty 0 1 0).1 = (setOp stEmpty 0 1 0).1 := by
  refine ⟨rfl, rfl⟩

/-- C9: as_mut_head walks five key nodes past the head and returns the
sixth node (the head of drop 5), or nothing when the chain holds five or
fewer key nodes; in that case the whole sweep is the identity (no node
unlinked, no store entry removed, no counter changed), and in every case
the first six chain positions survive the sweep verbatim, since the inner
loop only walks nodes strictly beyond the returned cursor. -/
theorem skip_window_protects_first_six (cfg : Config) (now : Nat)
    (st stS : St K V) (h5 : st.chain.length ≤ 5) (hS : 5 < stS.chain.length) :
    asMutHead 5 st.chain = none ∧
    sweep cfg now st = st ∧
    asMutHead 5 stS.chain = some (stS.chain.drop 5) ∧
    (sweep cfg now stS).chain.take 6 = stS.chain.take 6 := by
  have h1 : asMutHead 5 st.chain = none := by
    rw [asMutHead_spec, if_pos h5]
  have h3 : asMutHead 5 stS.chain = some (stS.chain.drop 5) := by
    rw [asMutHead_spec, if_neg (Nat.not_le_of_lt hS)]
  refine ⟨h1, ?_, h3, ?_⟩
  · rw [sweep, h1]
  · obtain ⟨prev, tail, hpt⟩ : ∃ prev tail, stS.chain.drop 5 = prev :: tail := by
      cases hd : stS.chain.drop 5 with
      | nil =>
        have hlen := List.length_drop 5 stS.chain
        rw [hd] at hlen
        simp only [List.length_nil] at hlen
        omega
      | cons a b => exact ⟨a, b, rfl⟩
    rw [sweep, h3, hpt]
    have htk5 : (stS.chain.take 5).length = 5 :=
      List.length_take_of_le (Nat.le_of_lt hS)
    rw [List.take_append_eq_append_take, htk5, List.take_take]
    have h6 : stS.chain.take 6 = stS.chain.take 5 ++ [prev] := by
      have := List.take_add stS.chain 5 1
      rw [hpt] at this
      simpa using this
    simp [h6]

/- ### Case equations for the sweep decision and for remove -/

theorem wsub_of_pos {n : Nat} (h0 : 0 < n) (h1 : n < USZ) : wsub n = n - 1 := by
  rw [wsub]
  have h2 : n + (USZ - 1) = (n - 1) + 1 * USZ := by
    have : 0 < USZ := by rw [USZ]; positivity
    omega
  rw [h2, Nat.add_mul_mod_self_right]
  exact Nat.mod_eq_of_lt (by omega)

theorem removeFromStore_found {st : St K V} {k : K} {e : Entry K V}
    (h : sLookup st.store k = some e) :
    removeFromStore st k =
      tombstone
        { st with
          store := (storeRemove st.store k).1,
          nRemoved := st.nRemoved + 1,
          curEntries := wsub st.curEntries } e.access := by
  have h2 : (storeRemove st.store k).2 = some e := by
    rw [storeRemove_snd]; exact h
  rw [removeFromStore, h2]

theorem removeFromStore_absent {st : St K V} {k : K}
    (h : sLookup st.store k = none) : removeFromStore st k = st := by
  rw [removeFromStore, storeRemove_of_none h]

theorem sweepStep_of_deleted {cfg : Config} {now : Nat} {st : St K V} {te nid : Nat}
    (h : (nodeAt st nid).deleted = true) :
    sweepStep cfg now st te nid =
      some ({ st with nDeleted := st.nDeleted + 1, nEvicted := st.nEvicted + 1 },
        wsub te) := by
  rw [sweepStep, if_pos h]

theorem sweepStep_of_old {cfg : Config} {now : Nat} {st : St K V} {te nid : Nat}
    (hd : (nodeAt st nid).deleted = false)
    (ho : oldCheck cfg.maxOld now (nodeAt st nid).born = true) :
    sweepStep cfg now st te nid =
      some
        (let st1 := removeFromStore { st with nOlder := st.nOlder + 1 } (nodeAt st nid).key
         ({ st1 with nEvicted := st1.nEvicted + 1 }, wsub te)) := by
  rw [sweepStep, if_neg (by rw [hd]; exact Bool.false_ne_true), if_pos ho]

theorem removeOp_found {st : St K V} {k : K} {e : Entry K V}
    (h : sLookup st.store k = some e) :
    removeOp st k =
      (tombstone
        { st with
          store := (storeRemove st.store k).1,
          curEntries := st.curEntries - 1 } e.access, some e.value) := by
  have h2 : (storeRemove st.store k).2 = some e := by
    rw [storeRemove_snd]; exact h
  rw [removeOp, h2]

theorem removeOp_absent {st : St K V} {k : K}
    (h : sLookup st.store k = none) : removeOp st k = (st, none) := by
  rw [removeOp, storeRemove_of_none h]

/-- C7: one decision per visited node, taken in priority order.  A
tombstoned node (n1) is unlinked with the store, the nodes and every other
counter untouched -- with no assumption on its age, so this holds even
when it is also older than max_old.  An expired live node whose key is
still stored (n2) bumps n_older and n_removed and decrements cur_entries,
removing the key.  An expired live node whose key is absent (n3) bumps
only n_older: the store, cur_entries and n_removed are untouched and the
sweep proceeds normally -- absence is not an error. -/
theorem sweepRule_priority_and_counters (cfg : Config) (now te : Nat)
    (st : St K V) (n1 n2 n3 : Nat) (e2 : Entry K V)
    (hu : uniqKeys st.store)
    (h1 : (nodeAt st n1).deleted = true)
    (h2d : (nodeAt st n2).deleted = false)
    (h2o : oldCheck cfg.maxOld now (nodeAt st n2).born = true)
    (h2p : sLookup st.store (nodeAt st n2).key = some e2)
    (h2c : 0 < st.curEntries) (h2w : st.curEntries < USZ)
    (h3d : (nodeAt st n3).deleted = false)
    (h3o : oldCheck cfg.maxOld now (nodeAt st n3).born = true)
    (h3a : sLookup st.store (nodeAt st n3).key = none) :
    (∃ st1, sweepStep cfg now st te n1 = some (st1, wsub te) ∧
      st1.store = st.store ∧ st1.nodes = st.nodes ∧
      st1.nDeleted = st.nDeleted + 1 ∧ st1.nOlder = st.nOlder ∧
      st1.nRemoved = st.nRemoved ∧ st1.curEntries = st.curEntries) ∧
    (∃ st2, sweepStep cfg now st te n2 = some (st2, wsub te) ∧
      st2.nOlder = st.nOlder + 1 ∧ st2.nDeleted = st.nDeleted ∧
      st2.nRemoved = st.nRemoved + 1 ∧ st2.curEntries = st.curEntries - 1 ∧
      sLookup st2.store (nodeAt st n2).key = none) ∧
    (∃ st3, sweepStep cfg now st te n3 = some (st3, wsub te) ∧
      st3.nOlder = st.nOlder + 1 ∧ st3.nDeleted = st.nDeleted ∧
      st3.nRemoved = st.nRemoved ∧ st3.curEntries = st.curEntries ∧
      st3.store = st.store ∧ st3.nodes = st.nodes) := by
  refine ⟨⟨{ st with nDeleted := st.nDeleted + 1, nEvicted := st.nEvicted + 1 },
    sweepStep_of_deleted h1, rfl, rfl, rfl, rfl, rfl, rfl⟩, ?_, ?_⟩
  · have hf : removeFromStore { st with nOlder := st.nOlder + 1 } (nodeAt st n2).key =
        tombstone
          { st with
            nOlder := st.nOlder + 1,
            store := (storeRemove st.store (nodeAt st n2).key).1,
            nRemoved := st.nRemoved + 1,
            curEntries := wsub st.curEntries } e2.access :=
      removeFromStore_found h2p
    refine ⟨tombstone
        { st with
          nOlder := st.nOlder + 1,
          store := (storeRemove st.store (nodeAt st n2).key).1,
          nRemoved := st.nRemoved + 1,
          curEntries := wsub st.curEntries,
          nEvicted := st.nEvicted + 1 } e2.access, ?_, rfl, rfl, rfl, ?_, ?_⟩
    · rw [sweepStep_of_old h2d h2o, hf]; rfl
    · exact wsub_of_pos h2c h2w
    · exact sLookup_storeRemove_self hu
  · have hf : removeFromStore { st with nOlder := st.nOlder + 1 } (nodeAt st n3).key =
        { st with nOlder := st.nOlder + 1 } :=
      removeFromStore_absent h3a
    refine ⟨{ st with nOlder := st.nOlder + 1, nEvicted := st.nEvicted + 1 },
      ?_, rfl, rfl, rfl, rfl, rfl, rfl⟩
    rw [sweepStep_of_old h3d h3o, hf]

/-- Witness for C7 at a concrete state: node 6 tombstoned, node 7 expired
with key 7 stored, node 8 expired with key 9 absent, at time 60 with
max_old 50. -/
theorem sweepRule_priority_and_counters_witness :
    (∃ st1, sweepStep cfgC7 60 stC7 0 6 = some (st1, wsub 0) ∧
      st1.store = stC7.store ∧ st1.nodes = stC7.nodes ∧
      st1.nDeleted = stC7.nDeleted + 1 ∧ st1.nOlder = stC7.nOlder ∧
      st1.nRemoved = stC7.nRemoved ∧ st1.curEntries = stC7.curEntries) ∧
    (∃ st2, sweepStep cfgC7 60 stC7 0 7 = some (st2, wsub 0) ∧
      st2.nOlder = stC7.nOlder + 1 ∧ st2.nDeleted = stC7.nDeleted ∧
      st2.nRemoved = stC7.nRemoved + 1 ∧ st2.curEntries = stC7.curEntries - 1 ∧
      sLookup st2.store (nodeAt stC7 7).key = none) ∧
    (∃ st3, sweepStep cfgC7 60 stC7 0 8 = some (st3, wsub 0) ∧
      st3.nOlder = stC7.nOlder + 1 ∧ st3.nDeleted = stC7.nDeleted ∧
      st3.nRemoved = stC7.nRemoved ∧ st3.curEntries = stC7.curEntries ∧
      st3.store = stC7.store ∧ st3.nodes = stC7.nodes) :=
  sweepRule_priority_and_counters cfgC7 60 0 stC7 6 7 8 ⟨7, 1, 7⟩
    (by decide) (by decide) (by decide) (by decide) (by decide) (by decide)
    (by decide) (by decide) (by decide) (by decide)

/-- C5: remove on a present key returns the stored value, leaves the key
absent from the store, decrements cur_entries, tombstones the entry's
access node and does not touch the recency chain; remove on an absent key
returns absent and leaves the state exactly unchanged.  The map removal,
the tombstoning and the no-op come from the prototype facade remove in
src/lib.rs; the returned value and the cur_entries decrement follow the
spec (the modern facade owning that counter is not under src/). -/
theorem remove_present_and_absent (st : St K V) (k1 k2 : K) (e : Entry K V)
    (hu : uniqKeys st.store)
    (hp : sLookup st.store k1 = some e)
    (ha : e.access < st.nodes.length)
    (hn : sLookup st.store k2 = none) :
    (removeOp st k1).2 = some e.value ∧
    sLookup (removeOp st k1).1.store k1 = none ∧
    (removeOp st k1).1.curEntries = st.curEntries - 1 ∧
    deletedAt (removeOp st k1).1 e.access = true ∧
    (removeOp st k1).1.chain = st.chain ∧
    removeOp st k2 = (st, none) := by
  rw [removeOp_found hp, removeOp_absent hn]
  refine ⟨rfl, sLookup_storeRemove_self hu, rfl, ?_, rfl, rfl⟩
  exact tombstone_deletedAt ha

/-- Witness for C5: key 0 is stored with value 42 and access node 0; key 5
is absent. -/
theorem remove_present_and_absent_witness :
    (removeOp stC5 0).2 = some 42 ∧
    sLookup (removeOp stC5 0).1.store 0 = none ∧
    (removeOp stC5 0).1.curEntries = stC5.curEntries - 1 ∧
    deletedAt (removeOp stC5 0).1 0 = true ∧
    (removeOp stC5 0).1.chain = stC5.chain ∧
    removeOp stC5 5 = (stC5, none) :=
  remove_present_and_absent stC5 0 5 ⟨0, 42, 0⟩
    (by decide) (by decide) (by decide) (by decide)

/-- Witness for C9 at concrete states: a one-node chain (nothing to sweep,
sweep is the identity) and a seven-node chain (cursor at index five, first
six positions preserved). -/
theorem skip_window_protects_first_six_witness :
    asMutHead 5 stC5.chain = none ∧
    sweep cfgC3 0 stC5 = stC5 ∧
    asMutHead 5 stC3.chain = some (stC3.chain.drop 5) ∧
    (sweep cfgC3 0 stC3).chain.take 6 = stC3.chain.take 6 :=
  skip_window_protects_first_six cfgC3 0 stC5 stC3 (by decide) (by decide)

/- ### Lemmas for get and set -/

theorem getLoop_snd (interf : List Nat) (st : St K V) (k : K) (v : V) (t : Nat) :
    (getLoop interf st k v t).2 = v := by
  induction interf generalizing st with
  | nil => rfl
  | cons a rest ih =>
    simp only [getLoop]
    by_cases hae : a = accessOf st k
    · rw [if_pos hae]
    · rw [if_neg hae]
      exact ih _

theorem setOp_store (st : St K V) (k : K) (v : V) (t : Nat) :
    (setOp st k v t).1.store = (storeSet st.store k v st.nodes.length).1 := by
  simp only [setOp, prependOp]
  cases hr : (storeSet st.store k v st.nodes.length).2 with
  | none => simp [hr]
  | some e => simp [hr, tombstone]

theorem setOp_lookup_value (st : St K V) (kk : K) (v : V) (t : Nat) (k : K) :
    (sLookup (setOp st kk v t).1.store k).map Entry.value =
      if k = kk then some v else (sLookup st.store k).map Entry.value := by
  rw [setOp_store]
  by_cases h : k = kk
  · subst h
    rw [if_pos rfl, sLookup_storeSet_self]
    rfl
  · rw [if_neg h, sLookup_storeSet_other _ _ _ h]

theorem runSets_lookup_value (ops : List (K × V × Nat)) (st : St K V) (k : K) :
    (sLookup (runSets st ops).store k).map Entry.value =
      match lastSet ops k with
      | some v => some v
      | none => (sLookup st.store k).map Entry.value := by
  induction ops generalizing st with
  | nil => rfl
  | cons o rest ih =>
    have hstep : runSets st (o :: rest) = runSets (setOp st o.1 o.2.1 o.2.2).1 rest := rfl
    rw [hstep, ih]
    simp only [lastSet]
    cases hl : lastSet rest k with
    | some v => rfl
    | none =>
      rw [setOp_lookup_value]
      by_cases h : k = o.1
      · rw [if_pos h, if_pos (h ▸ rfl)]
      · rw [if_neg h, if_neg (fun hk : o.1 = k => h hk.symm)]

/-- C1: after any sequence of set calls (no eviction runs in between), a
get of key k returns the value of the most recent set(k, v): the stored
Value for k always carries the last written value and the get closure
returns that value unchanged through its CAS loop. -/
theorem get_returns_most_recent_set (ops : List (K × V × Nat)) (st : St K V)
    (k : K) (v : V) (t : Nat) (h : lastSet ops k = some v) :
    (getOp [] (runSets st ops) k t).2 = some v := by
  have hv : (sLookup (runSets st ops).store k).map Entry.value = some v := by
    rw [runSets_lookup_value, h]
  rcases Option.map_eq_some'.mp hv with ⟨e, he, hev⟩
  rw [getOp, he]
  show some (getLoop [] (runSets st ops) k e.value t).2 = some v
  rw [getLoop_snd, hev]

/-- Witness for C1: three sets, the last one writing 9 to key 0; get of
key 0 returns 9. -/
theorem get_returns_most_recent_set_witness :
    (getOp [] (runSets stEmpty [(0, 5, 0), (1, 7, 1), (0, 9, 2)]) 0 3).2 = some 9 :=
  get_returns_most_recent_set [(0, 5, 0), (1, 7, 1), (0, 9, 2)] stEmpty 0 9 3
    (by decide)

theorem setAccess_lookup_self {st : St K V} {k : K} {e : Entry K V}
    (hp : sLookup st.store k = some e) (a : Nat) :
    sLookup (setAccess st k a).store k = some ⟨e.key, e.value, a⟩ := by
  show sLookup (storeSetAccess st.store k a) k = _
  rw [sLookup_storeSetAccess_self, hp]
  rfl

theorem accessOf_setAccess {st : St K V} {k : K} {e : Entry K V}
    (hp : sLookup st.store k = some e) (a : Nat) :
    accessOf (setAccess st k a) k = a := by
  rw [accessOf, setAccess_lookup_self hp a]

theorem getLoop_nGets_zero (st : St K V) (k : K) (v : V) (t : Nat) :
    (getLoop [] st k v t).1.nGets = st.nGets := rfl

theorem getLoop_nGets_count (interf : List Nat) (st : St K V) (k : K) (v : V)
    (t : Nat) (e : Entry K V) (hp : sLookup st.store k = some e)
    (hd : distinctFromB (accessOf st k) interf = true) :
    (getLoop interf st k v t).1.nGets = st.nGets + interf.length := by
  induction interf generalizing st e with
  | nil => rfl
  | cons a rest ih =>
    rw [distinctFromB, Bool.and_eq_true, bne_iff_ne] at hd
    simp only [getLoop]
    rw [if_neg hd.1]
    have hp4 : sLookup (setAccess (prependOp st k t).1 k a).store k =
        some ⟨e.key, e.value, a⟩ := setAccess_lookup_self hp a
    have hacc : accessOf (setAccess (prependOp st k t).1 k a) k = a :=
      accessOf_setAccess hp a
    have hacc2 : accessOf
        { tombstone (setAccess (prependOp st k t).1 k a) (prependOp st k t).2 with
          nGets := (tombstone (setAccess (prependOp st k t).1 k a)
            (prependOp st k t).2).nGets + 1 } k = a := hacc
    have hp4b : sLookup
        ({ tombstone (setAccess (prependOp st k t).1 k a) (prependOp st k t).2 with
          nGets := (tombstone (setAccess (prependOp st k t).1 k a)
            (prependOp st k t).2).nGets + 1 } : St K V).store k =
        some ⟨e.key, e.value, a⟩ := hp4
    have ihx := ih
      { tombstone (setAccess (prependOp st k t).1 k a) (prependOp st k t).2 with
        nGets := (tombstone (setAccess (prependOp st k t).1 k a)
          (prependOp st k t).2).nGets + 1 }
      ⟨e.key, e.value, a⟩ hp4b (by rw [hacc2]; exact hd.2)
    rw [ihx]
    simp only [List.length_cons]
    show st.nGets + 1 + rest.length = st.nGets + (rest.length + 1)
    omega

/-- C10: a get whose access-reference compare-and-swap succeeds on the
first attempt leaves n_gets unchanged (the `n_gets += 1` of lru.rs sits
after the match, which the success arm breaks out of); with an effective
interference schedule (each racing write differs from the access value it
overwrites) n_gets grows by exactly the number of failed attempts, one per
failure, not one per call. -/
theorem nGets_counts_failed_swaps (st : St K V) (k : K) (v : V) (t : Nat)
    (interf : List Nat) (e : Entry K V)
    (hp : sLookup st.store k = some e)
    (hd : distinctFromB (accessOf st k) interf = true) :
    (getOp [] st k t).1.nGets = st.nGets ∧
    (getLoop [] st k v t).1.nGets = st.nGets ∧
    (getLoop interf st k v t).1.nGets = st.nGets + interf.length := by
  refine ⟨?_, rfl, getLoop_nGets_count interf st k v t e hp hd⟩
  rw [getOp, hp]
  rfl

/-- Witness for C10: key 0 present; empty schedule leaves n_gets at 0, a
two-failure schedule ends with n_gets = 2. -/
theorem nGets_counts_failed_swaps_witness :
    (getOp [] stC5 0 3).1.nGets = stC5.nGets ∧
    (getLoop [] stC5 0 42 3).1.nGets = stC5.nGets ∧
    (getLoop [5, 3] stC5 0 42 3).1.nGets = stC5.nGets + [5, 3].length :=
  nGets_counts_failed_swaps stC5 0 42 3 [5, 3] ⟨0, 42, 0⟩ (by decide) (by decide)

/-- C6: every node created by a get on a present key is, when the loop
finishes, either the node installed as the entry's current access
reference or tombstoned: each failed compare-and-swap tombstones the
newly created node (not the previously installed one) before retrying,
and the final successful swap installs the last created node.  Node ids
at or above the starting arena size are exactly the nodes this get
created. -/
theorem get_created_nodes_installed_or_tombstoned (interf : List Nat)
    (st : St K V) (k : K) (v : V) (t : Nat) (e : Entry K V) (i : Nat)
    (hp : sLookup st.store k = some e)
    (hge : st.nodes.length ≤ i)
    (hlt : i < (getLoop interf st k v t).1.nodes.length) :
    accessOf (getLoop interf st k v t).1 k = i ∨
    deletedAt (getLoop interf st k v t).1 i = true := by
  induction interf generalizing st e with
  | nil =>
    have hlen : (getLoop [] st k v t).1.nodes.length = st.nodes.length + 1 := by
      show (markDeleted ((st.nodes ++ [⟨k, t, false⟩] : List (NodeRec K)))
        (accessOf st k)).length = st.nodes.length + 1
      rw [markDeleted_length, List.length_append, List.length_cons, List.length_nil]
    rw [hlen] at hlt
    have hi : i = st.nodes.length := by omega
    subst hi
    exact Or.inl (accessOf_setAccess hp (prependOp st k t).2)
  | cons a rest ih =>
    by_cases hae : a = accessOf st k
    · have hR : getLoop (a :: rest) st k v t =
          (tombstone (setAccess (setAccess (prependOp st k t).1 k a) k
            (prependOp st k t).2) (accessOf st k), v) := by
        simp only [getLoop]
        rw [if_pos hae]
      rw [hR] at hlt ⊢
      have hlen : (tombstone (setAccess (setAccess (prependOp st k t).1 k a) k
          (prependOp st k t).2) (accessOf st k)).nodes.length =
          st.nodes.length + 1 := by
        show (markDeleted ((st.nodes ++ [⟨k, t, false⟩] : List (NodeRec K)))
          (accessOf st k)).length = st.nodes.length + 1
        rw [markDeleted_length, List.length_append, List.length_cons, List.length_nil]
      rw [hlen] at hlt
      have hi : i = st.nodes.length := by omega
      subst hi
      exact Or.inl (accessOf_setAccess (setAccess_lookup_self hp a) (prependOp st k t).2)
    · have hR : getLoop (a :: rest) st k v t =
          getLoop rest
            { tombstone (setAccess (prependOp st k t).1 k a) (prependOp st k t).2 with
              nGets := (tombstone (setAccess (prependOp st k t).1 k a)
                (prependOp st k t).2).nGets + 1 } k v t := by
        simp only [getLoop]
        rw [if_neg hae]
      rw [hR] at hlt ⊢
      have hp4 : sLookup
          ({ tombstone (setAccess (prependOp st k t).1 k a) (prependOp st k t).2 with
            nGets := (tombstone (setAccess (prependOp st k t).1 k a)
              (prependOp st k t).2).nGets + 1 } : St K V).store k =
          some ⟨e.key, e.value, a⟩ := setAccess_lookup_self hp a
      by_cases hi : i = st.nodes.length
      · right
        subst hi
        apply getLoop_delePres rest _ k v t
        show ((markDeleted ((st.nodes ++ [⟨k, t, false⟩] : List (NodeRec K)))
          st.nodes.length).getD st.nodes.length ⟨default, 0, false⟩).deleted = true
        rw [markDeleted_getD_self _ (by
          rw [List.length_append, List.length_cons, List.length_nil]
          omega)]
      · have hge4 : ({ tombstone (setAccess (prependOp st k t).1 k a)
            (prependOp st k t).2 with
            nGets := (tombstone (setAccess (prependOp st k t).1 k a)
              (prependOp st k t).2).nGets + 1 } : St K V).nodes.length ≤ i := by
          have hlen4 : ({ tombstone (setAccess (prependOp st k t).1 k a)
              (prependOp st k t).2 with
              nGets := (tombstone (setAccess (prependOp st k t).1 k a)
                (prependOp st k t).2).nGets + 1 } : St K V).nodes.length =
              st.nodes.length + 1 := by
            show (markDeleted ((st.nodes ++ [⟨k, t, false⟩] : List (NodeRec K)))
              (prependOp st k t).2).length = st.nodes.length + 1
            rw [markDeleted_length, List.length_append, List.length_cons,
              List.length_nil]
          omega
        exact ih _ ⟨e.key, e.value, a⟩ hp4 hge4 hlt

/-- Witness for C6: a one-failure schedule on a present key; the first
created node (id 1) ends tombstoned while the second (id 2) is installed
as the current access reference. -/
theorem get_created_nodes_installed_or_tombstoned_witness :
    (accessOf (getLoop [5] stC5 0 42 3).1 0 = 1 ∨
      deletedAt (getLoop [5] stC5 0 42 3).1 1 = true) ∧
    (accessOf (getLoop [5] stC5 0 42 3).1 0 = 2 ∨
      deletedAt (getLoop [5] stC5 0 42 3).1 2 = true) :=
  ⟨get_created_nodes_installed_or_tombstoned [5] stC5 0 42 3 ⟨0, 42, 0⟩ 1
      (by decide) (by decide) (by decide),
    get_created_nodes_installed_or_tombstoned [5] stC5 0 42 3 ⟨0, 42, 0⟩ 2
      (by decide) (by decide) (by decide)⟩

/-- C4 amended: age-based removal holds only past the skip window.  When
max_old = d is configured, the surplus budget is zero, and a non-
tombstoned node for key k that has exceeded d sits past the first six
chain positions behind protected (young, live) nodes, the very next sweep
removes k from the store.  A key whose only node lies within the first six
positions (the counterexample: a single set) is never reaped. -/
theorem old_key_past_skip_window_reaped (cfg : Config) (d : Nat) (st : St K V)
    (now : Nat) (fillers post : List Nat) (nid : Nat)
    (hu : uniqKeys st.store)
    (h1 : cfg.maxOld = some d)
    (h2 : st.curEntries ≤ cfg.maxEntries)
    (h3 : st.chain = fillers ++ nid :: post)
    (h4 : 6 ≤ fillers.length)
    (h5 : ∀ m ∈ fillers.drop 6, (nodeAt st m).deleted = false ∧
      now - (nodeAt st m).born ≤ d)
    (h6 : (nodeAt st nid).deleted = false)
    (h7 : d < now - (nodeAt st nid).born) :
    sLookup (sweep cfg now st).store (nodeAt st nid).key = none := by
  have hlen7 : 5 < st.chain.length := by
    rw [h3, List.length_append, List.length_cons]
    omega
  obtain ⟨prev, tail5, hpt⟩ : ∃ p t5, fillers.drop 5 = p :: t5 := by
    cases hd : fillers.drop 5 with
    | nil =>
      exfalso
      have hl := List.length_drop 5 fillers
      rw [hd] at hl
      simp only [List.length_nil] at hl
      omega
    | cons p t5 => exact ⟨p, t5, rfl⟩
  have htail5 : tail5 = fillers.drop 6 := by
    have hq := List.tail_drop fillers 5
    rw [hpt] at hq
    simpa using hq
  have hmh : asMutHead 5 st.chain = some (prev :: (tail5 ++ (nid :: post))) := by
    rw [asMutHead_spec, if_neg (by omega), h3,
      List.drop_append_of_le_length (by omega), hpt, List.cons_append]
  rw [sweep, hmh]
  show sLookup (sweepGo cfg now st
    (if cfg.maxEntries < st.curEntries then st.curEntries - cfg.maxEntries else 0)
    [] (tail5 ++ (nid :: post))).1.store (nodeAt st nid).key = none
  rw [if_neg (Nat.not_lt.mpr h2)]
  have hprot : ∀ m ∈ tail5, (nodeAt st m).deleted = false ∧
      oldCheck cfg.maxOld now (nodeAt st m).born = false := by
    intro m hm
    rw [htail5] at hm
    refine ⟨(h5 m hm).1, ?_⟩
    rw [h1]
    simp only [oldCheck]
    exact decide_eq_false (Nat.not_lt.mpr (h5 m hm).2)
  rw [sweepGo_protected_run cfg now st [] (nid :: post) hprot]
  have ho : oldCheck cfg.maxOld now (nodeAt st nid).born = true := by
    rw [h1]
    simp only [oldCheck]
    exact decide_eq_true h7
  simp only [sweepGo]
  rw [sweepStep_of_old h6 ho]
  have hbase : sLookup
      (removeFromStore { st with nOlder := st.nOlder + 1 }
        (nodeAt st nid).key).store (nodeAt st nid).key = none :=
    removeFromStore_self_none (nodeAt st nid).key hu
  exact sweepGo_store_none cfg now (wsub 0) [] post hbase

/-- Witness for the amended C4: key 0 expired (born 0, now 100, max_old
50) with six young fillers ahead of it; the sweep removes it from the
store. -/
theorem old_key_past_skip_window_reaped_witness :
    sLookup (sweep cfgC4 100 stC4w).store 0 = none :=
  old_key_past_skip_window_reaped cfgC4 50 stC4w 100 [0, 1, 2, 3, 4, 5] [] 6
    (by decide) rfl (by decide) rfl (by decide)
    (by intro m hm; simp at hm) (by decide) (by decide)

/-- C8: Node::delete only stores true into the deleted flag: it is
idempotent, it leaves the node's key and born timestamp unchanged (and
every other node untouched), the state-level tombstone leaves the chain
(successor links), the store and the counters unchanged, and no operation
of the system -- any sequence of set, get (with any interference
schedule), remove and sweep -- ever turns a deleted flag back to false. -/
theorem tombstone_idempotent_frame_monotone (ns : List (NodeRec K)) (a i : Nat)
    (st0 : St K V) (b : Nat) (st : St K V) (ops : List (Op K V))
    (h : deletedAt st i = true) :
    markDeleted (markDeleted ns a) a = markDeleted ns a ∧
    ((markDeleted ns a).getD i ⟨default, 0, false⟩).key =
      (ns.getD i ⟨default, 0, false⟩).key ∧
    ((markDeleted ns a).getD i ⟨default, 0, false⟩).born =
      (ns.getD i ⟨default, 0, false⟩).born ∧
    (tombstone st0 b).chain = st0.chain ∧
    (tombstone st0 b).store = st0.store ∧
    (tombstone st0 b).curEntries = st0.curEntries ∧
    deletedAt (runOps st ops) i = true :=
  ⟨markDeleted_idem ns a, markDeleted_getD_key ns a i _, markDeleted_getD_born ns a i _,
   rfl, rfl, rfl, runOps_delePres st ops i h⟩

/-- Witness for C8: a deleted flag set by tombstone survives a set, a
get, a remove and a full sweep. -/
theorem tombstone_idempotent_frame_monotone_witness :
    markDeleted (markDeleted [(⟨3, 7, false⟩ : NodeRec Nat)] 0) 0 =
      markDeleted [(⟨3, 7, false⟩ : NodeRec Nat)] 0 ∧
    ((markDeleted [(⟨3, 7, false⟩ : NodeRec Nat)] 0).getD 0 ⟨default, 0, false⟩).key =
      (([(⟨3, 7, false⟩ : NodeRec Nat)]).getD 0 ⟨default, 0, false⟩).key ∧
    ((markDeleted [(⟨3, 7, false⟩ : NodeRec Nat)] 0).getD 0 ⟨default, 0, false⟩).born =
      (([(⟨3, 7, false⟩ : NodeRec Nat)]).getD 0 ⟨default, 0, false⟩).born ∧
    (tombstone stC5 0).chain = stC5.chain ∧
    (tombstone stC5 0).store = stC5.store ∧
    (tombstone stC5 0).curEntries = stC5.curEntries ∧
    deletedAt (runOps (tombstone stC5 0)
      [Op.set 1 2 3, Op.get 0 [] 4, Op.remove 1, Op.sweep cfgC3 9]) 0 = true :=
  tombstone_idempotent_frame_monotone [(⟨3, 7, false⟩ : NodeRec Nat)] 0 0 stC5 0
    (tombstone stC5 0) [Op.set 1 2 3, Op.get 0 [] 4, Op.remove 1, Op.sweep cfgC3 9]
    (by decide)

/-- Witness for C2 at a concrete overwrite: a second set of the same key
also leaves the counter where it was. -/
theorem set_never_touches_curEntries_witness :
    (setOp stC5 0 7 1).1.curEntries = stC5.curEntries :=
  set_never_touches_curEntries.1 stC5 0 7 1
